import Mathlib

/-!
# Verification of a parser-combinator library

A shallow embedding of the combinator library in `src/lib.rs`: a parser is
its `parse` function.  The Rust `Result<T>` outcome type (`Fail` or
`Success(next_position, value)`) is embedded as `Result T` below.  Because
the repetition combinator's loop can fail to terminate (a documented hazard
of the library), the embedded parse functions return `Option (Result T)`:
`some r` is the outcome the Rust code returns, and `none` marks a call on
which the Rust code does not terminate.  Sources (`&[u8]`) are embedded as
`List Nat`; bytes are only ever read and compared, never computed with, so
`Nat` is a faithful stand-in for `u8`.
-/

namespace ParserComb

/-- Mirrors `enum Result<T> { Fail, Success(usize, T) }`: `Fail` carries no
data at all (no position, no cause), `Success` carries the next cursor
position and the parsed value. -/
inductive Result (T : Type) where
  | Fail : Result T
  | Success : Nat → T → Result T
deriving DecidableEq

/-- A parser over a byte source, embedded as its `parse` function
(`fn parse(&self, position: usize, source: &[u8]) -> Result<T>`).
`none` models a `parse` call that never returns. -/
def Parser (T : Type) : Type :=
  Nat → List Nat → Option (Result T)

/-- `CharParser::parse`, the primitive byte parser returned by `readchar()`:
consume exactly one byte when one is available, otherwise fail.  The source
is indexed only under the guard `position < source.length`, exactly as in
the Rust `if position < source.len()`. -/
def readchar : Parser Nat := fun position source =>
  if h : position < source.length then
    some (Result.Success (position + 1) (source.get ⟨position, h⟩))
  else
    some Result.Fail

/-- The loop body of `AndParser::parse`: run the sub-parsers in order,
threading the cursor, short-circuiting to `Fail` on the first failure and
collecting the values in order.  A diverging sub-parser makes the whole
call diverge (the Rust loop would be stuck inside that sub-parser). -/
def andLoop {T : Type} (source : List Nat) : List (Parser T) → Nat → Option (Result (List T))
  | [], cursor => some (Result.Success cursor [])
  | p :: ps, cursor =>
    match p cursor source with
    | none => none
    | some Result.Fail => some Result.Fail
    | some (Result.Success pos data) =>
      match andLoop source ps pos with
      | none => none
      | some Result.Fail => some Result.Fail
      | some (Result.Success fin rest) => some (Result.Success fin (data :: rest))

/-- `concat` builds the sequence combinator (`AndParser`). -/
def concat {T : Type} (parsers : List (Parser T)) : Parser (List T) :=
  fun position source => andLoop source parsers position

/-- The loop body of `OrParser::parse`: try each sub-parser at the original
`position`, return the first success, fail when the list is exhausted. -/
def orLoop {T : Type} (source : List Nat) (position : Nat) : List (Parser T) → Option (Result T)
  | [] => some Result.Fail
  | p :: ps =>
    match p position source with
    | none => none
    | some Result.Fail => orLoop source position ps
    | some (Result.Success pos data) => some (Result.Success pos data)

/-- `oneof` builds the alternation combinator (`OrParser`). -/
def oneof {T : Type} (parsers : List (Parser T)) : Parser T :=
  fun position source => orLoop source position parsers

/-- `require` builds the filter combinator (`FilterParser::parse`): run the
wrapped parser; on success keep the outcome unchanged when the predicate
holds on the value and convert it to `Fail` otherwise. -/
def require {T : Type} (f : T → Bool) (p : Parser T) : Parser T :=
  fun position source =>
    match p position source with
    | none => none
    | some Result.Fail => some Result.Fail
    | some (Result.Success pos data) =>
      if f data then some (Result.Success pos data) else some Result.Fail

/-- `process` builds the transform combinator (`MapParser::parse`): run the
wrapped parser; on success apply `f` to the value, keeping the position. -/
def process {T U : Type} (f : T → U) (p : Parser T) : Parser U :=
  fun position source =>
    match p position source with
    | none => none
    | some Result.Fail => some Result.Fail
    | some (Result.Success pos data) => some (Result.Success pos (f data))

/-- The `loop` of `StarParser::parse`: repeatedly run the wrapped parser from
the current cursor, accumulating values, and stop (with the accumulated
values and the last good cursor) at the first failure.  The Rust loop
terminates exactly when each success strictly advances the cursor until a
failure is reached; the guard `cursor < pos ∧ pos ≤ source.length` is the
termination measure of that loop, and a round on which it does not hold is
a round on which the Rust loop never exits (a zero-width success repeats
verbatim forever).  For every parser of this library the guard can only
fail on a zero-width success (`parse_success_le_max` below bounds `pos` by
`max cursor source.length`, so `pos ≤ source.length` is free whenever
`cursor < pos`), so `none` faithfully marks exactly the diverging calls. -/
def starLoop {T : Type} (p : Parser T) (source : List Nat) (cursor : Nat) :
    Option (Nat × List T) :=
  match p cursor source with
  | none => none
  | some Result.Fail => some (cursor, [])
  | some (Result.Success pos data) =>
    if _hadv : cursor < pos ∧ pos ≤ source.length then
      match starLoop p source pos with
      | none => none
      | some (fin, rest) => some (fin, data :: rest)
    else
      none
termination_by source.length + 1 - cursor
decreasing_by omega

/-- `star` builds the repetition combinator (`StarParser`): it reports
success with the loop's accumulated values — or diverges with the loop. -/
def star {T : Type} (p : Parser T) : Parser (List T) :=
  fun position source =>
    match starLoop p source position with
    | none => none
    | some (fin, results) => some (Result.Success fin results)

/-- The parsers expressible in the library: everything built from the six
exported constructors `readchar`, `concat`, `oneof`, `require`, `process`
and `star`. -/
inductive Built : ∀ {T : Type}, Parser T → Prop where
  | readchar : Built readchar
  | concat {T : Type} (ps : List (Parser T)) :
      (∀ p ∈ ps, Built p) → Built (concat ps)
  | oneof {T : Type} (ps : List (Parser T)) :
      (∀ p ∈ ps, Built p) → Built (oneof ps)
  | require {T : Type} (f : T → Bool) (p : Parser T) :
      Built p → Built (require f p)
  | process {T U : Type} (f : T → U) (p : Parser T) :
      Built p → Built (process f p)
  | star {T : Type} (p : Parser T) :
      Built p → Built (star p)

/-- One unfolding of the `star` loop. -/
theorem starLoop_eq {T : Type} (p : Parser T) (source : List Nat) (cursor : Nat) :
    starLoop p source cursor =
      match p cursor source with
      | none => none
      | some Result.Fail => some (cursor, [])
      | some (Result.Success pos data) =>
        if cursor < pos ∧ pos ≤ source.length then
          match starLoop p source pos with
          | none => none
          | some (fin, rest) => some (fin, data :: rest)
        else
          none := by
  rw [starLoop]
  simp only [dite_eq_ite]

/-- `readchar` always returns (it never diverges). -/
theorem readchar_total (position : Nat) (source : List Nat) :
    readchar position source ≠ none := by
  unfold readchar
  split <;> simp

/-- Every success of `readchar` strictly advances the cursor. -/
theorem readchar_strict (position : Nat) (source : List Nat) (pos v : Nat)
    (h : readchar position source = some (Result.Success pos v)) : position < pos := by
  unfold readchar at h
  split at h
  · simp at h
    omega
  · simp at h

/-- Cursor bound for the sequence loop: assuming each sub-parser reports a
next position between its input position and `max position source.length`,
so does the threaded loop. -/
theorem andLoop_bound {T : Type} (source : List Nat) :
    ∀ (ps : List (Parser T)),
      (∀ p ∈ ps, ∀ pos pos' v, p pos source = some (Result.Success pos' v) →
        pos ≤ pos' ∧ pos' ≤ max pos source.length) →
      ∀ cursor fin vs, andLoop source ps cursor = some (Result.Success fin vs) →
        cursor ≤ fin ∧ fin ≤ max cursor source.length := by
  intro ps
  induction ps with
  | nil =>
    intro _ cursor fin vs h
    simp [andLoop] at h
    omega
  | cons p ps ih =>
    intro hps cursor fin vs h
    simp only [andLoop] at h
    split at h
    · simp at h
    · simp at h
    · rename_i pos data heq
      split at h
      · simp at h
      · simp at h
      · rename_i fin2 rest heq2
        simp at h
        have h1 := hps p (List.mem_cons_self p ps) cursor pos data heq
        have h2 := ih (fun q hq => hps q (List.mem_cons_of_mem p hq)) pos fin2 rest heq2
        omega

/-- Every success of the alternation loop is the success of one of the
sub-parsers, run at the original position. -/
theorem orLoop_success_mem {T : Type} (source : List Nat) (position : Nat) :
    ∀ (ps : List (Parser T)) pos v,
      orLoop source position ps = some (Result.Success pos v) →
      ∃ p ∈ ps, p position source = some (Result.Success pos v) := by
  intro ps
  induction ps with
  | nil =>
    intro pos v h
    simp [orLoop] at h
  | cons p ps ih =>
    intro pos v h
    simp only [orLoop] at h
    split at h
    · simp at h
    · obtain ⟨q, hq, hqs⟩ := ih pos v h
      exact ⟨q, List.mem_cons_of_mem p hq, hqs⟩
    · rename_i pos2 data heq
      simp at h
      exact ⟨p, List.mem_cons_self p ps, by rw [heq, h.1, h.2]⟩

/-- Cursor bound for the `star` loop, with no assumption on the wrapped
parser: the final cursor lies between the input cursor and
`max cursor source.length`. -/
theorem starLoop_bound {T : Type} (p : Parser T) (source : List Nat) :
    ∀ cursor fin vs, starLoop p source cursor = some (fin, vs) →
      cursor ≤ fin ∧ fin ≤ max cursor source.length := by
  have key : ∀ n cursor fin vs, source.length + 1 - cursor ≤ n →
      starLoop p source cursor = some (fin, vs) →
      cursor ≤ fin ∧ fin ≤ max cursor source.length := by
    intro n
    induction n with
    | zero =>
      intro cursor fin vs hn h
      rw [starLoop_eq] at h
      split at h
      · simp at h
      · simp at h
        omega
      · rename_i pos data heq
        split at h
        · rename_i hadv
          omega
        · simp at h
    | succ n ih =>
      intro cursor fin vs hn h
      rw [starLoop_eq] at h
      split at h
      · simp at h
      · simp at h
        omega
      · rename_i pos data heq
        split at h
        · rename_i hadv
          split at h
          · simp at h
          · rename_i fin2 rest heq2
            simp at h
            have h2 := ih pos fin2 rest (by omega) heq2
            omega
        · simp at h
  intro cursor fin vs
  exact key (source.length + 1 - cursor) cursor fin vs (le_refl _)

/-- Every parser of the library is cursor-monotone and bounded: a success at
`pos` reports a next position in `[pos, max pos source.length]`.  (In
particular a success from a position beyond the end of the source cannot
advance at all.) -/
theorem parse_success_le_max : ∀ {T : Type} {p : Parser T}, Built p →
    ∀ pos source pos' v, p pos source = some (Result.Success pos' v) →
      pos ≤ pos' ∧ pos' ≤ max pos source.length := by
  intro T p hb
  induction hb with
  | readchar =>
    intro pos source pos' v h
    unfold readchar at h
    split at h
    · rename_i hlt
      simp at h
      omega
    · simp at h
  | concat ps hps ih =>
    intro pos source pos' v h
    exact andLoop_bound source ps
      (fun q hq pos2 pos2' v2 hh => ih q hq pos2 source pos2' v2 hh) pos pos' v h
  | oneof ps hps ih =>
    intro pos source pos' v h
    obtain ⟨q, hq, hqs⟩ := orLoop_success_mem source pos ps pos' v h
    exact ih q hq pos source pos' v hqs
  | require f q hbq ih =>
    intro pos source pos' v h
    unfold require at h
    split at h
    · simp at h
    · simp at h
    · rename_i pos2 data heq
      split at h
      · simp at h
        obtain ⟨h1, h2⟩ := h
        have h3 := ih pos source pos2 data heq
        omega
      · simp at h
  | process f q hbq ih =>
    intro pos source pos' v h
    unfold process at h
    split at h
    · simp at h
    · simp at h
    · rename_i pos2 data heq
      simp at h
      obtain ⟨h1, h2⟩ := h
      have h3 := ih pos source pos2 data heq
      omega
  | star q hbq ih =>
    intro pos source pos' v h
    unfold star at h
    split at h
    · simp at h
    · rename_i fin results heq
      simp at h
      obtain ⟨h1, h2⟩ := h
      have h3 := starLoop_bound q source pos fin results heq
      omega

/-- A greedy run of the repetition combinator, stated the way the spec
describes it: apply the wrapped parser repeatedly from the cursor, collect
each value, and stop at the first failure, which leaves the final ("last
good") cursor. -/
inductive StarRun {T : Type} (p : Parser T) (source : List Nat) : Nat → Nat → List T → Prop where
  | last {c : Nat} : p c source = some Result.Fail → StarRun p source c c []
  | step {c c' fin : Nat} {v : T} {vs : List T} :
      p c source = some (Result.Success c' v) →
      StarRun p source c' fin vs →
      StarRun p source c fin (v :: vs)

/-- A terminating `star` loop computes exactly a greedy run. -/
theorem starLoop_run {T : Type} (p : Parser T) (source : List Nat) :
    ∀ cursor fin vs, starLoop p source cursor = some (fin, vs) →
      StarRun p source cursor fin vs := by
  have key : ∀ n cursor fin vs, source.length + 1 - cursor ≤ n →
      starLoop p source cursor = some (fin, vs) → StarRun p source cursor fin vs := by
    intro n
    induction n with
    | zero =>
      intro cursor fin vs hn h
      rw [starLoop_eq] at h
      split at h
      · simp at h
      · rename_i heq
        simp at h
        obtain ⟨h1, h2⟩ := h
        subst h1
        subst h2
        exact StarRun.last heq
      · rename_i pos data heq
        split at h
        · rename_i hadv
          omega
        · simp at h
    | succ n ih =>
      intro cursor fin vs hn h
      rw [starLoop_eq] at h
      split at h
      · simp at h
      · rename_i heq
        simp at h
        obtain ⟨h1, h2⟩ := h
        subst h1
        subst h2
        exact StarRun.last heq
      · rename_i pos data heq
        split at h
        · rename_i hadv
          split at h
          · simp at h
          · rename_i fin2 rest heq2
            simp at h
            obtain ⟨h1, h2⟩ := h
            subst h1
            subst h2
            exact StarRun.step heq (ih pos fin2 rest (by omega) heq2)
        · simp at h
  intro cursor fin vs
  exact key (source.length + 1 - cursor) cursor fin vs (le_refl _)

/-- If the wrapped parser always returns, every one of its successes
strictly advances the cursor, and its next positions obey the library
bound `pos ≤ max cursor source.length`, then the `star` loop terminates
from every cursor. -/
theorem starLoop_total {T : Type} {p : Parser T} (source : List Nat)
    (htot : ∀ cursor, p cursor source ≠ none)
    (hstrict : ∀ cursor pos v, p cursor source = some (Result.Success pos v) → cursor < pos)
    (hbound : ∀ cursor pos v, p cursor source = some (Result.Success pos v) →
      pos ≤ max cursor source.length) :
    ∀ cursor, starLoop p source cursor ≠ none := by
  have key : ∀ n cursor, source.length + 1 - cursor ≤ n →
      starLoop p source cursor ≠ none := by
    intro n
    induction n with
    | zero =>
      intro cursor hn
      rw [starLoop_eq]
      split
      · rename_i heq
        exact absurd heq (htot cursor)
      · simp
      · rename_i pos data heq
        have h1 := hstrict cursor pos data heq
        have h2 := hbound cursor pos data heq
        exfalso
        omega
    | succ n ih =>
      intro cursor hn
      rw [starLoop_eq]
      split
      · rename_i heq
        exact absurd heq (htot cursor)
      · simp
      · rename_i pos data heq
        have h1 := hstrict cursor pos data heq
        have h2 := hbound cursor pos data heq
        have hadv : cursor < pos ∧ pos ≤ source.length := by omega
        rw [if_pos hadv]
        split
        · rename_i heq2
          exact absurd heq2 (ih pos (by omega))
        · simp
  intro cursor
  exact key (source.length + 1 - cursor) cursor (le_refl _)

/-- Under the same hypotheses, at a cursor at or past the end of the source
the wrapped parser must fail (it cannot strictly advance there), so the
loop stops at once with no values. -/
theorem starLoop_exhausted {T : Type} {p : Parser T} (source : List Nat)
    (htot : ∀ cursor, p cursor source ≠ none)
    (hstrict : ∀ cursor pos v, p cursor source = some (Result.Success pos v) → cursor < pos)
    (hbound : ∀ cursor pos v, p cursor source = some (Result.Success pos v) →
      pos ≤ max cursor source.length)
    (cursor : Nat) (hc : source.length ≤ cursor) :
    starLoop p source cursor = some (cursor, []) := by
  rw [starLoop_eq]
  split
  · rename_i heq
    exact absurd heq (htot cursor)
  · rfl
  · rename_i pos data heq
    have h1 := hstrict cursor pos data heq
    have h2 := hbound cursor pos data heq
    exfalso
    omega

/-- Threading relation for the sequence combinator, in the spec's words:
`Threads source ps c fin vs` holds when the parsers of `ps`, run in the
given order with each one starting at the cursor left by the previous one
(the first at `c`), all succeed, producing the values `vs` in order and
leaving the cursor at `fin`. -/
inductive Threads {T : Type} (source : List Nat) :
    List (Parser T) → Nat → Nat → List T → Prop where
  | nil {c : Nat} : Threads source [] c c []
  | cons {p : Parser T} {ps : List (Parser T)} {c c' fin : Nat} {v : T} {vs : List T} :
      p c source = some (Result.Success c' v) →
      Threads source ps c' fin vs →
      Threads source (p :: ps) c fin (v :: vs)

/-- Failure relation for the sequence combinator: some proper prefix of the
list succeeds, threading the cursor, and the next parser fails at the
cursor so reached. -/
inductive FailsIn {T : Type} (source : List Nat) : List (Parser T) → Nat → Prop where
  | here {p : Parser T} {ps : List (Parser T)} {c : Nat} :
      p c source = some Result.Fail → FailsIn source (p :: ps) c
  | later {p : Parser T} {ps : List (Parser T)} {c c' : Nat} {v : T} :
      p c source = some (Result.Success c' v) →
      FailsIn source ps c' →
      FailsIn source (p :: ps) c

/-- The sequence loop succeeds exactly on threaded runs of its sub-parsers. -/
theorem andLoop_success_iff {T : Type} (source : List Nat) :
    ∀ (ps : List (Parser T)) (cursor fin : Nat) (vs : List T),
      andLoop source ps cursor = some (Result.Success fin vs) ↔
        Threads source ps cursor fin vs := by
  intro ps
  induction ps with
  | nil =>
    intro cursor fin vs
    constructor
    · intro h
      simp [andLoop] at h
      obtain ⟨h1, h2⟩ := h
      subst h1
      subst h2
      exact Threads.nil
    · intro h
      cases h
      simp [andLoop]
  | cons p ps ih =>
    intro cursor fin vs
    constructor
    · intro h
      simp only [andLoop] at h
      split at h
      · simp at h
      · simp at h
      · rename_i pos data heq
        split at h
        · simp at h
        · simp at h
        · rename_i fin2 rest heq2
          simp at h
          obtain ⟨h1, h2⟩ := h
          subst h1
          subst h2
          exact Threads.cons heq ((ih pos fin2 rest).mp heq2)
    · intro h
      cases h with
      | cons hsucc hrest =>
        rename_i c' v vs'
        simp only [andLoop, hsucc, (ih c' fin vs').mpr hrest]

/-- The sequence loop fails exactly when some sub-parser fails at its
threaded cursor (all earlier ones having succeeded). -/
theorem andLoop_fail_iff {T : Type} (source : List Nat) :
    ∀ (ps : List (Parser T)) (cursor : Nat),
      andLoop source ps cursor = some Result.Fail ↔ FailsIn source ps cursor := by
  intro ps
  induction ps with
  | nil =>
    intro cursor
    constructor
    · intro h
      simp [andLoop] at h
    · intro h
      cases h
  | cons p ps ih =>
    intro cursor
    constructor
    · intro h
      simp only [andLoop] at h
      split at h
      · simp at h
      · rename_i heq
        exact FailsIn.here heq
      · rename_i pos data heq
        split at h
        · simp at h
        · rename_i heq2
          exact FailsIn.later heq ((ih pos).mp heq2)
        · simp at h
    · intro h
      cases h with
      | here hf =>
        simp only [andLoop, hf]
      | later hs hrest =>
        rename_i c' v
        simp only [andLoop, hs, (ih c').mpr hrest]

/-- When every sub-parser fails at the original position, the alternation
loop fails (in particular it fails on the empty list). -/
theorem orLoop_all_fail {T : Type} (source : List Nat) (position : Nat) :
    ∀ (ps : List (Parser T)), (∀ p ∈ ps, p position source = some Result.Fail) →
      orLoop source position ps = some Result.Fail := by
  intro ps
  induction ps with
  | nil =>
    intro _
    simp [orLoop]
  | cons p ps ih =>
    intro hall
    simp only [orLoop, hall p (List.mem_cons_self p ps)]
    exact ih (fun q hq => hall q (List.mem_cons_of_mem p hq))

/-- When the parsers before `p` all fail at the original position and `p`
succeeds there, the alternation loop returns the success of `p`. -/
theorem orLoop_first_success {T : Type} (source : List Nat) (position : Nat) :
    ∀ (ps₁ : List (Parser T)) (p : Parser T) (ps₂ : List (Parser T)) (pos : Nat) (v : T),
      (∀ q ∈ ps₁, q position source = some Result.Fail) →
      p position source = some (Result.Success pos v) →
      orLoop source position (ps₁ ++ p :: ps₂) = some (Result.Success pos v) := by
  intro ps₁
  induction ps₁ with
  | nil =>
    intro p ps₂ pos v _ hp
    simp only [List.nil_append, orLoop, hp]
  | cons q ps₁ ih =>
    intro p ps₂ pos v hfail hp
    simp only [List.cons_append, orLoop, hfail q (List.mem_cons_self q ps₁)]
    exact ih p ps₂ pos v (fun r hr => hfail r (List.mem_cons_of_mem q hr)) hp

/-- The `star readchar` loop from any in-range cursor reads all the
remaining bytes: it stops at the end of the source having collected
exactly the dropped suffix. -/
theorem starLoop_readchar (source : List Nat) :
    ∀ (cursor : Nat), cursor ≤ source.length →
      starLoop readchar source cursor = some (source.length, source.drop cursor) := by
  have hrdf : readchar source.length source = some Result.Fail := by
    unfold readchar
    rw [dif_neg (by omega)]
  have key : ∀ n cursor, source.length - cursor ≤ n → cursor ≤ source.length →
      starLoop readchar source cursor = some (source.length, source.drop cursor) := by
    intro n
    induction n with
    | zero =>
      intro cursor hn hc
      have hcl : cursor = source.length := by omega
      subst hcl
      rw [starLoop_eq]
      simp only [hrdf]
      simp
    | succ n ih =>
      intro cursor hn hc
      rcases Nat.lt_or_ge cursor source.length with hlt | hge
      · have hrd : readchar cursor source
            = some (Result.Success (cursor + 1) (source.get ⟨cursor, hlt⟩)) := by
          unfold readchar
          rw [dif_pos hlt]
        rw [starLoop_eq]
        simp only [hrd]
        rw [if_pos ⟨Nat.lt_succ_self cursor, hlt⟩]
        simp only [ih (cursor + 1) (by omega) (by omega)]
        rw [List.drop_eq_getElem_cons hlt]
        simp
      · have hcl : cursor = source.length := by omega
        subst hcl
        rw [starLoop_eq]
        simp only [hrdf]
        simp
  intro cursor hc
  exact key (source.length - cursor) cursor (le_refl _) hc

/-- Claim C1: for every byte source and position `pos`, the primitive byte
parser succeeds iff `pos < length source`; on success it returns the byte
at index `pos` with next position exactly `pos + 1`, and at
`pos ≥ length source` it fails. -/
theorem readchar_correct (pos : Nat) (source : List Nat) :
    ((∃ pos' v, readchar pos source = some (Result.Success pos' v)) ↔ pos < source.length)
    ∧ (∀ h : pos < source.length,
        readchar pos source = some (Result.Success (pos + 1) (source.get ⟨pos, h⟩)))
    ∧ (source.length ≤ pos → readchar pos source = some Result.Fail) := by
  refine ⟨⟨?_, ?_⟩, ?_, ?_⟩
  · rintro ⟨pos', v, h⟩
    unfold readchar at h
    by_contra hge
    rw [dif_neg hge] at h
    simp at h
  · intro hlt
    exact ⟨pos + 1, source.get ⟨pos, hlt⟩, by unfold readchar; rw [dif_pos hlt]⟩
  · intro hlt
    unfold readchar
    rw [dif_pos hlt]
  · intro hge
    unfold readchar
    rw [dif_neg (by omega)]

/-- Witness for C1 on the spec's own example, `"test"` being the bytes
`[116, 101, 115, 116]`: at 0 it reads `'t'` and stops at 1; at 4 it
fails. -/
theorem readchar_correct_witness :
    readchar 0 [116, 101, 115, 116] = some (Result.Success 1 116)
    ∧ readchar 4 [116, 101, 115, 116] = some Result.Fail :=
  ⟨(readchar_correct 0 [116, 101, 115, 116]).2.1 (by decide),
   (readchar_correct 4 [116, 101, 115, 116]).2.2 (by decide)⟩

/-- Claim C2: `concat ps` runs the sub-parsers in the given order threading
the cursor: it succeeds exactly on a threaded run of all of them, at the
final cursor, with the ordered list of all sub-results; it fails exactly
when some sub-parser fails after the earlier ones succeeded (short-circuit
— and `Fail` carries no cursor, so no partial position is reported); and on
the empty list it succeeds at the input position with the empty list. -/
theorem concat_correct {T : Type} (ps : List (Parser T)) (pos : Nat) (source : List Nat) :
    (∀ fin vs, concat ps pos source = some (Result.Success fin vs) ↔
       Threads source ps pos fin vs)
    ∧ (concat ps pos source = some Result.Fail ↔ FailsIn source ps pos)
    ∧ concat ([] : List (Parser T)) pos source = some (Result.Success pos []) := by
  refine ⟨?_, ?_, ?_⟩
  · intro fin vs
    exact andLoop_success_iff source ps pos fin vs
  · exact andLoop_fail_iff source ps pos
  · simp [concat, andLoop]

/-- Claim C3: `oneof ps` tries the sub-parsers in the given order, each at
the original input position, and returns the first success unchanged (its
own next position and value); when every sub-parser fails — in particular
on the empty list — it fails. -/
theorem oneof_correct {T : Type} (ps : List (Parser T)) (pos : Nat) (source : List Nat) :
    ((∀ p ∈ ps, p pos source = some Result.Fail) → oneof ps pos source = some Result.Fail)
    ∧ (∀ (ps₁ : List (Parser T)) (p : Parser T) (ps₂ : List (Parser T)) (pos' : Nat) (v : T),
        ps = ps₁ ++ p :: ps₂ →
        (∀ q ∈ ps₁, q pos source = some Result.Fail) →
        p pos source = some (Result.Success pos' v) →
        oneof ps pos source = some (Result.Success pos' v))
    ∧ oneof ([] : List (Parser T)) pos source = some Result.Fail := by
  refine ⟨?_, ?_, ?_⟩
  · intro hall
    exact orLoop_all_fail source pos ps hall
  · intro ps₁ p ps₂ pos' v hsplit hfail hp
    subst hsplit
    exact orLoop_first_success source pos ps₁ p ps₂ pos' v hfail hp
  · simp [oneof, orLoop]

/-- Witness for C3: a first alternative that rejects the byte `5` and a
second that accepts anything; the second one's success at position 1 is
returned. -/
theorem oneof_correct_witness :
    oneof [require (fun c => decide (c = 9)) readchar, readchar] 0 [5]
      = some (Result.Success 1 5) :=
  (oneof_correct [require (fun c => decide (c = 9)) readchar, readchar] 0 [5]).2.1
    [require (fun c => decide (c = 9)) readchar] readchar [] 1 5 rfl
    (by intro q hq; simp at hq; subst hq; rfl) rfl

/-- Claim C4: under the documented precondition — the wrapped library
parser always returns and every one of its successes strictly advances the
cursor — `star p` never returns `Fail`: it succeeds with the values of the
greedy run at the run's last good cursor, and at an already-exhausted
cursor (at or past the end of the source) it succeeds at the same position
with the empty sequence. -/
theorem star_never_fails {T : Type} (p : Parser T) (hb : Built p)
    (htot : ∀ pos source, p pos source ≠ none)
    (hstrict : ∀ pos source pos' v, p pos source = some (Result.Success pos' v) → pos < pos') :
    ∀ pos source,
      (∃ fin vs, star p pos source = some (Result.Success fin vs)
        ∧ StarRun p source pos fin vs)
      ∧ (source.length ≤ pos → star p pos source = some (Result.Success pos [])) := by
  intro pos source
  have hbound : ∀ cursor pos' v, p cursor source = some (Result.Success pos' v) →
      pos' ≤ max cursor source.length :=
    fun cursor pos' v h => (parse_success_le_max hb cursor source pos' v h).2
  constructor
  · have hne := starLoop_total source (fun c => htot c source)
      (fun c pos' v h => hstrict c source pos' v h) hbound pos
    cases hsl : starLoop p source pos with
    | none => exact absurd hsl hne
    | some r =>
      obtain ⟨fin, vs⟩ := r
      refine ⟨fin, vs, ?_, starLoop_run p source pos fin vs hsl⟩
      unfold star
      simp only [hsl]
  · intro hex
    have hstop := starLoop_exhausted source (fun c => htot c source)
      (fun c pos' v h => hstrict c source pos' v h) hbound pos hex
    unfold star
    simp only [hstop]

/-- Witness for C4: `star readchar` applied at the already-exhausted
cursor 5 of a one-byte source succeeds at 5 with no values. -/
theorem star_never_fails_witness :
    star readchar 5 [7] = some (Result.Success 5 []) :=
  (star_never_fails readchar Built.readchar (fun pos source => readchar_total pos source)
    (fun pos source pos' v h => readchar_strict pos source pos' v h) 5 [7]).2 (by decide)

/-- Claim C5: for a wrapped library parser that always returns and whose
every success strictly advances the cursor, the repetition loop terminates
(`star p` returns) at every position and source; and whenever the wrapped
parser succeeds with a next position equal to the current cursor
(zero-width success), the loop does not terminate — `none` being the
embedding's marker for a `parse` call that never returns. -/
theorem star_termination {T : Type} (p : Parser T) (hb : Built p) :
    ((∀ pos source, p pos source ≠ none) →
     (∀ pos source pos' v, p pos source = some (Result.Success pos' v) → pos < pos') →
     ∀ pos source, star p pos source ≠ none)
    ∧ (∀ pos source v, p pos source = some (Result.Success pos v) →
        star p pos source = none) := by
  constructor
  · intro htot hstrict pos source
    have hbound : ∀ cursor pos' v, p cursor source = some (Result.Success pos' v) →
        pos' ≤ max cursor source.length :=
      fun cursor pos' v h => (parse_success_le_max hb cursor source pos' v h).2
    have hne := starLoop_total source (fun c => htot c source)
      (fun c pos' v h => hstrict c source pos' v h) hbound pos
    unfold star
    cases hsl : starLoop p source pos with
    | none => exact absurd hsl hne
    | some r =>
      obtain ⟨fin, vs⟩ := r
      simp
  · intro pos source v h
    have hnone : starLoop p source pos = none := by
      rw [starLoop_eq]
      simp only [h]
      rw [if_neg (by omega)]
    unfold star
    simp only [hnone]

/-- Witness for C5: `star readchar` terminates on the empty source, while
`star (concat [])` — `concat []` succeeding everywhere with zero width —
loops forever. -/
theorem star_termination_witness :
    star readchar 0 [] ≠ none
    ∧ star (concat ([] : List (Parser Nat))) 0 [] = none :=
  ⟨(star_termination readchar Built.readchar).1 readchar_total
      (fun pos source pos' v h => readchar_strict pos source pos' v h) 0 [],
   (star_termination (concat []) (Built.concat [] (by intro q hq; simp at hq))).2 0 [] []
      rfl⟩

/-- Claim C6: the filter combinator is all-or-nothing: when the wrapped
parser fails so does `require f p`; when it succeeds at `pos'` with value
`v` and `f v` holds, the success is propagated completely unchanged; when
`f v` does not hold the outcome is the bare `Fail` — which carries no
position, so the advancement made by the wrapped parser is discarded. -/
theorem require_correct {T : Type} (f : T → Bool) (p : Parser T) (pos : Nat)
    (source : List Nat) :
    (p pos source = some Result.Fail → require f p pos source = some Result.Fail)
    ∧ (∀ pos' v, p pos source = some (Result.Success pos' v) →
        (f v = true → require f p pos source = some (Result.Success pos' v))
        ∧ (f v = false → require f p pos source = some Result.Fail)) := by
  constructor
  · intro h
    unfold require
    simp only [h]
  · intro pos' v h
    constructor
    · intro hf
      unfold require
      simp only [h, hf]
      simp
    · intro hf
      unfold require
      simp only [h, hf]
      simp

/-- Witness for C6 on the spec's own example over `"test"`
(`[116, 101, 115, 116]`): requiring `'t'` (116) accepts and leaves
position 1 and value 116 unchanged; requiring `'x'` (120) fails. -/
theorem require_correct_witness :
    require (fun c => decide (c = 116)) readchar 0 [116, 101, 115, 116]
        = some (Result.Success 1 116)
    ∧ require (fun c => decide (c = 120)) readchar 0 [116, 101, 115, 116]
        = some Result.Fail :=
  ⟨((require_correct (fun c => decide (c = 116)) readchar 0 [116, 101, 115, 116]).2
      1 116 rfl).1 (by decide),
   ((require_correct (fun c => decide (c = 120)) readchar 0 [116, 101, 115, 116]).2
      1 116 rfl).2 (by decide)⟩

/-- Claim C7: the transform combinator fails exactly when the wrapped
parser fails, and on a success of the wrapped parser it succeeds at the
very same advanced position with only the value mapped through `f`. -/
theorem process_correct {T U : Type} (f : T → U) (p : Parser T) (pos : Nat)
    (source : List Nat) :
    (process f p pos source = some Result.Fail ↔ p pos source = some Result.Fail)
    ∧ (∀ pos' v, p pos source = some (Result.Success pos' v) →
        process f p pos source = some (Result.Success pos' (f v))) := by
  constructor
  · constructor
    · intro h
      unfold process at h
      split at h
      · simp at h
      · rename_i heq
        exact heq
      · simp at h
    · intro h
      unfold process
      simp only [h]
  · intro pos' v h
    unfold process
    simp only [h]

/-- Witness for C7: mapping successor over the one-byte read of `[116]`
keeps position 1 and maps the value 116 to 117. -/
theorem process_correct_witness :
    process (fun c => c + 1) readchar 0 [116] = some (Result.Success 1 117) :=
  (process_correct (fun c => c + 1) readchar 0 [116]).2 1 116 rfl

/-- Claim C8: round-trip law — for a byte-preserving encode/decode pair
(`enc` encodes one character to one byte, and `dec` undoes the induced
encoding of character sequences), `process dec (star readchar)` applied at
position 0 to the encoding of any character sequence `s` succeeds at
position `length s` with value `s`. -/
theorem roundtrip_star_readchar {α : Type} (enc : α → Nat) (dec : List Nat → List α)
    (hinv : ∀ l : List α, dec (l.map enc) = l) (s : List α) :
    process dec (star readchar) 0 (s.map enc) = some (Result.Success s.length s) := by
  have hs : star readchar 0 (s.map enc)
      = some (Result.Success (s.map enc).length (s.map enc)) := by
    unfold star
    have hloop := starLoop_readchar (s.map enc) 0 (by omega)
    simp only [hloop]
    simp
  unfold process
  simp only [hs]
  simp [hinv s]

/-- Witness for C8 with the identity encoding on the sequence
`[3, 1, 4]`. -/
theorem roundtrip_star_readchar_witness :
    process (fun l => l) (star readchar) 0 (List.map (fun c => c) [3, 1, 4])
      = some (Result.Success 3 [3, 1, 4]) :=
  roundtrip_star_readchar (fun c => c) (fun l => l) (by simp) [3, 1, 4]

/-- Claim C9: cursor monotonicity — every success of every parser built
from the six constructors reports a next position at least the input
position.  (On failure no position exists to report at all: the `Fail`
constructor of the outcome type carries no data.) -/
theorem parse_monotone {T : Type} (p : Parser T) (hb : Built p) (pos : Nat)
    (source : List Nat) (pos' : Nat) (v : T)
    (h : p pos source = some (Result.Success pos' v)) : pos ≤ pos' :=
  (parse_success_le_max hb pos source pos' v h).1

/-- Witness for C9: `readchar` at 0 over `[7]` succeeds at 1 ≥ 0. -/
theorem parse_monotone_witness :
    readchar 0 [7] = some (Result.Success 1 7) ∧ (0 : Nat) ≤ 1 :=
  ⟨rfl, parse_monotone readchar Built.readchar 0 [7] 1 7 rfl⟩

/-- Claim C10: totality beyond the stated precondition range — at any
position at or past the end of the source the primitive parser simply
fails (its source access sits under the guard `position < source.length`:
in this embedding `source.get ⟨position, h⟩` demands the guard's proof
`h`, so no out-of-bounds access is even expressible), and every parser
built from the six constructors still has a well-defined outcome there:
it diverges (the repetition hazard), fails, or succeeds without moving. -/
theorem parse_out_of_range :
    (∀ pos source, source.length ≤ pos → readchar pos source = some Result.Fail)
    ∧ (∀ (T : Type) (p : Parser T), Built p → ∀ pos source, source.length ≤ pos →
        p pos source = none ∨ p pos source = some Result.Fail
        ∨ ∃ v, p pos source = some (Result.Success pos v)) := by
  constructor
  · intro pos source hge
    unfold readchar
    rw [dif_neg (by omega)]
  · intro T p hb pos source hlen
    cases hp : p pos source with
    | none => exact Or.inl rfl
    | some r =>
      cases r with
      | Fail => exact Or.inr (Or.inl rfl)
      | Success pos2 v =>
        have hbd := parse_success_le_max hb pos source pos2 v hp
        have hp2 : pos2 = pos := by omega
        subst hp2
        exact Or.inr (Or.inr ⟨v, rfl⟩)

/-- Witness for C10: position 3 on the one-byte source `[1]` makes
`readchar` fail, and the built parser `star readchar` at the out-of-range
position 2 over `[9]` still has a well-defined outcome. -/
theorem parse_out_of_range_witness :
    readchar 3 [1] = some Result.Fail
    ∧ (star readchar 2 [9] = none ∨ star readchar 2 [9] = some Result.Fail
        ∨ ∃ v, star readchar 2 [9] = some (Result.Success 2 v)) :=
  ⟨parse_out_of_range.1 3 [1] (by decide),
   parse_out_of_range.2 (List Nat) (star readchar) (Built.star readchar Built.readchar) 2 [9]
     (by decide)⟩

end ParserComb
